import Mathlib

/-!
Verification development for the Spatial Tiling & Geometric Annotation Engine
of the image-labeling backend.  Each Python function under scrutiny is given a
shallow embedding in Lean: pure integer/float arithmetic becomes Nat/Rat
arithmetic, Python loops become fuel-indexed structural recursion (the fuel
passed at the call sites is large enough that the recursion is never cut
short, exactly mirroring the Python loop), and code paths that raise become
Option-valued results.
-/

namespace ImageLabeling

/-! ## Tiling (backend/app/utils/image.py, get_slices)

The Python code:

```
if img_w <= tile_size and img_h <= tile_size:
    return [(0, 0, img_w, img_h)]
slices = []
stride = int(tile_size * (1 - overlap))
for y in range(0, img_h, stride):
    for x in range(0, img_w, stride):
        x2 = min(x + tile_size, img_w)
        y2 = min(y + tile_size, img_h)
        x1 = max(0, x2 - tile_size)
        y1 = max(0, y2 - tile_size)
        slices.append((x1, y1, x2, y2))
        if x2 >= img_w:
            break
    if y2 >= img_h:
        break
return slices
```

A tile is `(x1, y1, x2, y2)`.  `max (0, x2 - tile_size)` on integers is
truncated subtraction on `Nat`.  When `stride = 0`, Python's `range` raises
`ValueError` (and a negative stride would leave `y2` unbound, raising
`NameError`), so the embedding returns `none` in that case.  The float
expression `int(tile_size * (1 - overlap))` is embedded as the rational
floor; on the inputs evaluated below the float and rational values agree. -/

/-- Inner `for x in range(0, img_w, stride)` loop of `get_slices`.  The
fuel argument only bounds the recursion; a call with `img_w ≤ x + fuel`
(as made by `sliceRows`) performs exactly the iterations the Python loop
does, because the loop always breaks once `x2 ≥ img_w`. -/
def sliceRow (imgW imgH tileSize stride y : ℕ) : ℕ → ℕ → List (ℕ × ℕ × ℕ × ℕ)
  | 0, _ => []
  | fuel + 1, x =>
    if x < imgW then
      let x2 := min (x + tileSize) imgW
      let y2 := min (y + tileSize) imgH
      let t := (x2 - tileSize, y2 - tileSize, x2, y2)
      if imgW ≤ x2 then [t]
      else t :: sliceRow imgW imgH tileSize stride y fuel (x + stride)
    else []

/-- Outer `for y in range(0, img_h, stride)` loop of `get_slices`.  After a
row, the Python code breaks when `y2 ≥ img_h`, where `y2` is the value
`min (y + tile_size) img_h` computed in the (always nonempty, for
`img_w ≥ 1`) inner loop. -/
def sliceRows (imgW imgH tileSize stride : ℕ) : ℕ → ℕ → List (ℕ × ℕ × ℕ × ℕ)
  | 0, _ => []
  | fuel + 1, y =>
    if y < imgH then
      let row := sliceRow imgW imgH tileSize stride y imgW 0
      if imgH ≤ min (y + tileSize) imgH then row
      else row ++ sliceRows imgW imgH tileSize stride fuel (y + stride)
    else []

/-- Embedding of `get_slices(img_h, img_w, tile_size, overlap)`.  Returns
`none` exactly when the Python code raises (stride of the `range` not
positive). -/
def get_slices (imgH imgW tileSize : ℕ) (overlap : ℚ) : Option (List (ℕ × ℕ × ℕ × ℕ)) :=
  if imgW ≤ tileSize ∧ imgH ≤ tileSize then
    some [(0, 0, imgW, imgH)]
  else
    let stride := (⌊(tileSize : ℚ) * (1 - overlap)⌋).toNat
    if stride = 0 then none
    else some (sliceRows imgW imgH tileSize stride imgH 0)

/-- A tile `(x1, y1, x2, y2)` covers the pixel column/row `(px, py)`.  The
union of the closed real rectangles `[x1,x2] × [y1,y2]` equals
`[0,W] × [0,H]` iff this integer predicate covers exactly the lattice of
pixels `px < W`, `py < H`, because all coordinates are integers. -/
def tileCovers (t : ℕ × ℕ × ℕ × ℕ) (px py : ℕ) : Prop :=
  t.1 ≤ px ∧ px < t.2.2.1 ∧ t.2.1 ≤ py ∧ py < t.2.2.2

instance (t : ℕ × ℕ × ℕ × ℕ) (px py : ℕ) : Decidable (tileCovers t px py) := by
  unfold tileCovers; infer_instance

/-- Every tile emitted by the inner loop has the shape
`(x2 - T, y2 - T, x2, y2)` with `x2 = min (x' + T) W` for some `x'` and
`y2 = min (y + T) H`. -/
theorem mem_sliceRow {imgW imgH tileSize stride y fuel x : ℕ}
    {t : ℕ × ℕ × ℕ × ℕ} (ht : t ∈ sliceRow imgW imgH tileSize stride y fuel x) :
    ∃ x', t = (min (x' + tileSize) imgW - tileSize, min (y + tileSize) imgH - tileSize,
               min (x' + tileSize) imgW, min (y + tileSize) imgH) := by
  induction fuel generalizing x with
  | zero => simp [sliceRow] at ht
  | succ fuel ih =>
    rw [sliceRow] at ht
    by_cases hx : x < imgW
    · simp only [if_pos hx] at ht
      by_cases hb : imgW ≤ min (x + tileSize) imgW
      · simp only [if_pos hb, List.mem_singleton] at ht
        exact ⟨x, ht⟩
      · simp only [if_neg hb, List.mem_cons] at ht
        rcases ht with h | h
        · exact ⟨x, h⟩
        · exact ih h
    · simp [if_neg hx] at ht

/-- Every tile emitted by the outer loop has the canonical shape for some
start coordinates `x'`, `y'`. -/
theorem mem_sliceRows {imgW imgH tileSize stride fuel y : ℕ}
    {t : ℕ × ℕ × ℕ × ℕ} (ht : t ∈ sliceRows imgW imgH tileSize stride fuel y) :
    ∃ x' y', t = (min (x' + tileSize) imgW - tileSize, min (y' + tileSize) imgH - tileSize,
                  min (x' + tileSize) imgW, min (y' + tileSize) imgH) := by
  induction fuel generalizing y with
  | zero => simp [sliceRows] at ht
  | succ fuel ih =>
    rw [sliceRows] at ht
    by_cases hy : y < imgH
    · simp only [if_pos hy] at ht
      by_cases hb : imgH ≤ min (y + tileSize) imgH
      · simp only [if_pos hb] at ht
        obtain ⟨x', hx'⟩ := mem_sliceRow ht
        exact ⟨x', y, hx'⟩
      · simp only [if_neg hb, List.mem_append] at ht
        rcases ht with h | h
        · obtain ⟨x', hx'⟩ := mem_sliceRow h
          exact ⟨x', y, hx'⟩
        · exact ih h
    · simp [if_neg hy] at ht

/-- The stride `int(tile_size * (1 - overlap))` never exceeds the tile size
when the overlap is nonnegative. -/
theorem stride_le_tileSize (tileSize : ℕ) (r : ℚ) (hr : 0 ≤ r) :
    (⌊(tileSize : ℚ) * (1 - r)⌋).toNat ≤ tileSize := by
  have h1 : (tileSize : ℚ) * (1 - r) ≤ ((tileSize : ℕ) : ℚ) := by
    have hT : (0 : ℚ) ≤ (tileSize : ℚ) := by positivity
    nlinarith
  have h2 : ⌊(tileSize : ℚ) * (1 - r)⌋ ≤ (tileSize : ℤ) := by
    have := Int.floor_le_floor h1
    rwa [Int.floor_natCast] at this
  exact Int.toNat_le.mpr h2

/-- If the image is at least one pixel wide, the inner tiling loop (entered at
`x` with enough fuel) covers every pixel column from `min (x + T) W - T`
up to `W - 1`. -/
theorem sliceRow_covers {imgW imgH tileSize stride y : ℕ}
    (hs : 0 < stride) (hsT : stride ≤ tileSize) (fuel : ℕ) :
    ∀ x px, x < imgW → imgW ≤ x + fuel →
      min (x + tileSize) imgW - tileSize ≤ px → px < imgW →
      ∃ t ∈ sliceRow imgW imgH tileSize stride y fuel x, t.1 ≤ px ∧ px < t.2.2.1 := by
  induction fuel with
  | zero => intro x px hx hfuel _ _; omega
  | succ fuel ih =>
    intro x px hx hfuel hlb hpx
    simp only [sliceRow]
    rw [if_pos hx]
    by_cases hb : imgW ≤ min (x + tileSize) imgW
    · rw [if_pos hb]
      exact ⟨_, List.mem_singleton_self _, by simp; omega, by simp; omega⟩
    · rw [if_neg hb]
      by_cases hcase : px < min (x + tileSize) imgW
      · exact ⟨_, List.mem_cons_self _ _, by simp; omega, by simpa using hcase⟩
      · obtain ⟨t, htmem, h1, h2⟩ :=
          ih (x + stride) px (by omega) (by omega) (by omega) hpx
        exact ⟨t, List.mem_cons_of_mem _ htmem, h1, h2⟩

/-- The outer tiling loop (entered at `y` with enough fuel) covers every
pixel of the image rectangle at or below row `min (y + T) H - T`. -/
theorem sliceRows_covers {imgW imgH tileSize stride : ℕ}
    (hs : 0 < stride) (hsT : stride ≤ tileSize) (hW : 1 ≤ imgW) (fuel : ℕ) :
    ∀ y px py, y < imgH → imgH ≤ y + fuel →
      min (y + tileSize) imgH - tileSize ≤ py → py < imgH → px < imgW →
      ∃ t ∈ sliceRows imgW imgH tileSize stride fuel y, tileCovers t px py := by
  induction fuel with
  | zero => intro y px py hy hfuel _ _ _; omega
  | succ fuel ih =>
    intro y px py hy hfuel hlb hpy hpx
    simp only [sliceRows]
    rw [if_pos hy]
    by_cases hcase : py < min (y + tileSize) imgH
    · obtain ⟨t, htmem, h1, h2⟩ :=
        @sliceRow_covers imgW imgH tileSize stride y hs hsT imgW 0 px
          (by omega) (by omega) (by omega) hpx
      obtain ⟨x', hx'⟩ := mem_sliceRow htmem
      have hcov : tileCovers t px py := by
        rw [hx'] at h1 h2 ⊢
        refine ⟨h1, h2, ?_, ?_⟩ <;> simp <;> omega
      by_cases hb : imgH ≤ min (y + tileSize) imgH
      · rw [if_pos hb]; exact ⟨t, htmem, hcov⟩
      · rw [if_neg hb]; exact ⟨t, List.mem_append_left _ htmem, hcov⟩
    · have hb : ¬ imgH ≤ min (y + tileSize) imgH := by omega
      rw [if_neg hb]
      obtain ⟨t, htmem, hcov⟩ :=
        ih (y + stride) px py (by omega) (by omega) (by omega) hpy hpx
      exact ⟨t, List.mem_append_right _ htmem, hcov⟩

/-- C1 as frozen is false: at image 700×100 (H×W), tile size 640, overlap
0.2, the exception `W ≤ T ∧ H ≤ T` does not apply, yet the first returned
tile `(0, 0, 100, 640)` is 100 pixels wide, not 640: a narrow image yields
tiles of width `min W T`. -/
theorem get_slices_not_always_tileSize :
    get_slices 700 100 640 (1/5) = some [(0, 0, 100, 640), (0, 60, 100, 700)] ∧
    ¬ ((100 : ℕ) ≤ 640 ∧ (700 : ℕ) ≤ 640) ∧
    (100 : ℕ) - 0 ≠ 640 := by
  refine ⟨?_, by omega, by omega⟩
  unfold get_slices
  norm_num
  decide

/-- C1 amended: whenever `get_slices H W T r` returns a list of tiles,
every returned tile is exactly `min W T` pixels wide and `min H T` pixels
tall.  In particular tiles are exactly `T×T` when the image is at least
`T` in both dimensions, and the single whole-image tile `(0,0,W,H)` of the
small-image case also has this shape. -/
theorem get_slices_tile_dims {imgH imgW tileSize : ℕ} {r : ℚ}
    {slices : List (ℕ × ℕ × ℕ × ℕ)} {t : ℕ × ℕ × ℕ × ℕ}
    (h : get_slices imgH imgW tileSize r = some slices) (ht : t ∈ slices) :
    t.2.2.1 - t.1 = min imgW tileSize ∧ t.2.2.2 - t.2.1 = min imgH tileSize := by
  simp only [get_slices] at h
  split at h
  · rename_i hsmall
    obtain rfl : slices = [(0, 0, imgW, imgH)] := by
      exact (Option.some_injective _ h).symm
    rw [List.mem_singleton] at ht
    subst ht
    simp
    omega
  · split at h
    · exact absurd h (by simp)
    · obtain rfl : slices = sliceRows imgW imgH tileSize
          ((⌊(tileSize : ℚ) * (1 - r)⌋).toNat) imgH 0 :=
        (Option.some_injective _ h).symm
      obtain ⟨x', y', hxy⟩ := mem_sliceRows ht
      subst hxy
      simp
      omega

/-- Witness for `get_slices_tile_dims`: the first tile of the 700×100
example is 100 = min 100 640 wide and 640 = min 700 640 tall. -/
theorem get_slices_tile_dims_witness :
    (100 : ℕ) - 0 = min 100 640 ∧ (640 : ℕ) - 0 = min 700 640 := by
  have h : get_slices 700 100 640 (1/5) = some [(0, 0, 100, 640), (0, 60, 100, 700)] := by
    unfold get_slices
    norm_num
    decide
  exact @get_slices_tile_dims 700 100 640 (1/5) [(0, 0, 100, 640), (0, 60, 100, 700)]
    (0, 0, 100, 640) h (by simp)

/-- C2 as frozen is false: at H = W = 2, T = 1, r = 1/2 (all within the
claim's ranges) the computed stride `int(1 · (1 − 1/2))` is 0, so the
Python `range` raises `ValueError` (embedded as `none`): no tiles are
returned at all, and their union therefore does not equal the image
rectangle. -/
theorem get_slices_union_counterexample :
    get_slices 2 2 1 (1/2) = none ∧ ¬ ((2 : ℕ) ≤ 1 ∧ (2 : ℕ) ≤ 1) := by
  refine ⟨?_, by omega⟩
  unfold get_slices
  norm_num

/-- C2 amended: whenever `get_slices H W T r` (with H, W ≥ 1 and
nonnegative overlap) succeeds — i.e. the stride `int(T·(1−r))` is positive
or the whole image fits in one tile — the union of the returned rectangles
is exactly the image rectangle: a pixel `(px, py)` lies in some returned
tile iff `px < W` and `py < H`. -/
theorem get_slices_union_eq_image {imgH imgW tileSize : ℕ} {r : ℚ}
    {slices : List (ℕ × ℕ × ℕ × ℕ)}
    (hH : 1 ≤ imgH) (hW : 1 ≤ imgW) (hr : 0 ≤ r)
    (h : get_slices imgH imgW tileSize r = some slices) (px py : ℕ) :
    (∃ t ∈ slices, tileCovers t px py) ↔ (px < imgW ∧ py < imgH) := by
  simp only [get_slices] at h
  split at h
  · rename_i hsmall
    obtain rfl : slices = [(0, 0, imgW, imgH)] := (Option.some_injective _ h).symm
    simp [tileCovers]
  · rename_i hbig
    split at h
    · exact absurd h (by simp)
    · rename_i hstride
      obtain rfl : slices = sliceRows imgW imgH tileSize
          ((⌊(tileSize : ℚ) * (1 - r)⌋).toNat) imgH 0 :=
        (Option.some_injective _ h).symm
      have hs : 0 < (⌊(tileSize : ℚ) * (1 - r)⌋).toNat := Nat.pos_of_ne_zero hstride
      have hsT := stride_le_tileSize tileSize r hr
      constructor
      · rintro ⟨t, ht, hcov⟩
        obtain ⟨x', y', hxy⟩ := mem_sliceRows ht
        obtain ⟨h1, h2, h3, h4⟩ := hcov
        subst hxy
        simp at h2 h4
        omega
      · rintro ⟨hpx, hpy⟩
        exact sliceRows_covers hs hsT hW imgH 0 px py (by omega) (by omega)
          (by omega) hpy hpx

/-- Witness for `get_slices_union_eq_image`: on the 3×3 image with tile
size 2 and overlap 0, pixel (2,2) lies in a returned tile. -/
theorem get_slices_union_eq_image_witness :
    (∃ t ∈ [((0:ℕ), (0:ℕ), (2:ℕ), (2:ℕ)), (1, 0, 3, 2), (0, 1, 2, 3), (1, 1, 3, 3)],
        tileCovers t 2 2) ↔ ((2:ℕ) < 3 ∧ (2:ℕ) < 3) := by
  have h : get_slices 3 3 2 0 = some [(0, 0, 2, 2), (1, 0, 3, 2), (0, 1, 2, 3), (1, 1, 3, 3)] := by
    unfold get_slices
    norm_num
    decide
  exact get_slices_union_eq_image (by omega) (by omega) le_rfl h 2 2

/-! ## Geometry (backend/app/services/geometry_service.py)

Polygons are lists of rational points.  The Shapely primitives the service
calls are embedded as exact rational geometry:

* `ShapelyPolygon(pts).buffer(0)` / `make_valid` repair already-valid rings
  by identity; every ring evaluated in this file is a valid simple polygon,
  so the repair step is the identity here.
* `tile_box.intersection(poly)` is embedded as Sutherland–Hodgman clipping
  of the polygon ring against the axis-aligned box (`clipRect`), which is
  the exact geometric intersection whenever that intersection is a single
  polygon (in particular for every input evaluated below).
* `geom.exterior.coords` lists the ring vertices with the closing vertex
  duplicated at the end (`exteriorCoords`).
* `geom.area` is the absolute shoelace area of the ring (`shoelaceArea`).
* `shapely.ops.split(polygon, line)` for a straight cutter that crosses the
  polygon completely is embedded as the pair of half-plane clips on either
  side of the cutter line (`splitByLine`); the buffer-subtract fallback of
  the except-branch is not triggered on the evaluated inputs. -/

/-- A 2D point with exact rational coordinates. -/
abbrev Point : Type := ℚ × ℚ

/-- Pairs up a flat coordinate list `[x1, y1, x2, y2, ...]`, dropping a
trailing unpaired element, exactly like `zip(points[::2], points[1::2])`. -/
def toPairs : List ℚ → List Point
  | x :: y :: rest => (x, y) :: toPairs rest
  | _ => []

/-- Flattens a point list back into `[x1, y1, x2, y2, ...]` form. -/
def flattenPts (ps : List Point) : List ℚ :=
  ps.flatMap (fun p => [p.1, p.2])

/-- Clamp into [0,1]: `min(max(v, 0), 1)`. -/
def clamp01 (v : ℚ) : ℚ := min (max v 0) 1

/-- Intersection of segment `p q` with the line `a·x + b·y = c` (the
segment is assumed to cross the line when this is called by the clipper). -/
def lineInter (a b c : ℚ) (p q : Point) : Point :=
  let d := a * (q.1 - p.1) + b * (q.2 - p.2)
  if d = 0 then p
  else
    let t := (c - a * p.1 - b * p.2) / d
    (p.1 + t * (q.1 - p.1), p.2 + t * (q.2 - p.2))

/-- Sutherland–Hodgman emission for one directed edge `s → e` against the
half-plane `a·x + b·y ≤ c`. -/
def shEmit (a b c : ℚ) (s e : Point) : List Point :=
  if a * e.1 + b * e.2 ≤ c then
    if a * s.1 + b * s.2 ≤ c then [e] else [lineInter a b c s e, e]
  else
    if a * s.1 + b * s.2 ≤ c then [lineInter a b c s e] else []

/-- Clips a polygon ring against the half-plane `a·x + b·y ≤ c`
(Sutherland–Hodgman pass over the cyclic edge list). -/
def clipHP (a b c : ℚ) (ps : List Point) : List Point :=
  (ps.zip (ps.rotate 1)).flatMap (fun se => shEmit a b c se.1 se.2)

/-- Clips a polygon ring against the axis-aligned rectangle
`[x1,x2] × [y1,y2]`: the exact intersection with the box for rings whose
intersection with the box is a single polygon. -/
def clipRect (x1 y1 x2 y2 : ℚ) (ps : List Point) : List Point :=
  clipHP 0 1 y2 (clipHP 0 (-1) (-y1) (clipHP 1 0 x2 (clipHP (-1) 0 (-x1) ps)))

/-- Shapely's `exterior.coords`: the ring vertices with the first vertex
repeated at the end as an explicit closing point. -/
def exteriorCoords : List Point → List Point
  | [] => []
  | h :: t => h :: (t ++ [h])

/-- Signed cross-product sum of the closed traversal that starts at the
points of the list and returns to `p0` from its last element. -/
def crossAux (p0 : Point) : List Point → ℚ
  | [] => 0
  | [p] => p.1 * p0.2 - p0.1 * p.2
  | p :: q :: rest => (p.1 * q.2 - q.1 * p.2) + crossAux p0 (q :: rest)

/-- Twice the signed area of the ring (shoelace sum over the cyclic edge
list). -/
def crossSum : List Point → ℚ
  | [] => 0
  | h :: t => crossAux h (h :: t)

/-- Shapely's `geom.area`: absolute shoelace area of the ring. -/
def shoelaceArea (ps : List Point) : ℚ := |crossSum ps| / 2

/-- Area of a polygon given as a flat coordinate list (a duplicated closing
vertex contributes nothing to the shoelace sum). -/
def flatArea (f : List ℚ) : ℚ := shoelaceArea (toPairs f)

/-- The per-geometry body of the result loop in
`intersect_polygon_with_box`: walk `g.exterior.coords[:-1]` (all ring
points except the duplicated closing one), shift by the tile origin,
divide by the tile extent, clamp into [0,1], flatten, and keep the
fragment only if it still has at least 3 points (6 coordinates). -/
def processRing (x1 y1 tw th : ℚ) (ring : List Point) : Option (List ℚ) :=
  let flat := ((exteriorCoords ring).dropLast).flatMap
      (fun p => [clamp01 ((p.1 - x1) / tw), clamp01 ((p.2 - y1) / th)])
  if 6 ≤ flat.length then some flat else none

/-- Embedding of `intersect_polygon_with_box(poly_coords, box, img_w,
img_h)`: denormalize the polygon to absolute pixels, intersect with the
tile box, and post-process every resulting polygon piece with
`processRing`.  The input ring is assumed valid (so `make_valid` is the
identity) and its intersection with the box a single polygon (so the
`Polygon` branch of the geometry-type dispatch is taken). -/
def intersect_polygon_with_box (polyCoords : List Point)
    (box : ℚ × ℚ × ℚ × ℚ) (imgW imgH : ℚ) : List (List ℚ) :=
  let x1 := box.1
  let y1 := box.2.1
  let tw := box.2.2.1 - x1
  let th := box.2.2.2 - y1
  let absCoords := polyCoords.map (fun p => (p.1 * imgW, p.2 * imgH))
  let ring := clipRect x1 y1 box.2.2.1 box.2.2.2 absCoords
  let geoms := if ring.isEmpty then ([] : List (List Point)) else [ring]
  geoms.filterMap (processRing x1 y1 tw th)

/-- Exact square root on ℚ for arguments whose square root is rational
(models the float `np.linalg.norm`/`math.sqrt` exactly in that case; every
norm taken in this file is such a value). -/
def ratSqrt (q : ℚ) : ℚ :=
  let n := q.num.toNat.sqrt
  let d := q.den.sqrt
  if (n * n = q.num.toNat ∧ d * d = q.den) ∧ 0 ≤ q then (n : ℚ) / d else 0

/-- Second half of `extend_line`: push the last point of the list outward
along the direction from the second-to-last point, by `expansion`.  The
list it receives already has its first point extended, exactly like the
in-place mutation in the Python code. -/
def extendEnd (l : List Point) (expansion : ℚ) : List Point :=
  match l.getLast?, l.dropLast.getLast? with
  | some pn, some pnm1 =>
    let v := (pn.1 - pnm1.1, pn.2 - pnm1.2)
    let n := ratSqrt (v.1 * v.1 + v.2 * v.2)
    if 0 < n then
      l.dropLast ++ [(pn.1 + v.1 / n * expansion, pn.2 + v.2 / n * expansion)]
    else l
  | _, _ => l

/-- Embedding of `extend_line(points_tuples, expansion)`: lists shorter
than two points are returned unchanged; otherwise the first point is pushed
outward along the first segment's direction and then the last point along
the last segment's direction (computed on the already-updated list, as the
Python code mutates in place). -/
def extend_line (pts : List Point) (expansion : ℚ) : List Point :=
  match pts with
  | p0 :: p1 :: rest =>
    let v := (p0.1 - p1.1, p0.2 - p1.2)
    let n := ratSqrt (v.1 * v.1 + v.2 * v.2)
    let l1 := if 0 < n then
        (p0.1 + v.1 / n * expansion, p0.2 + v.2 / n * expansion) :: p1 :: rest
      else p0 :: p1 :: rest
    extendEnd l1 expansion
  | l => l

/-- Embedding of `shapely.ops.split(polygon, line)` for a straight cutter
line through `p` and `q` that crosses the polygon completely: the two
half-plane clips on either side of the line (empty clips discarded). -/
def splitByLine (ring : List Point) (p q : Point) : List (List Point) :=
  let a := q.2 - p.2
  let b := p.1 - q.1
  let c := a * p.1 + b * p.2
  [clipHP a b c ring, clipHP (-a) (-b) (-c) ring].filter (fun r => !r.isEmpty)

/-- Embedding of `_extract_polygons(geom, result_list, min_area)` applied
to a collection of polygon pieces: keep each piece whose area exceeds
`min_area`, flattening all of its `exterior.coords` — including the
duplicated closing vertex — into the result. -/
def extract_polygons (geoms : List (List Point)) (minArea : ℚ) : List (List ℚ) :=
  geoms.filterMap (fun g =>
    if minArea < shoelaceArea g then some (flattenPts (exteriorCoords g)) else none)

/-- Embedding of `split_polygon(target_points, cutter_points, min_area)`
for a straight (two-point) cutter: `none` models the `ValueError` raised
when the cutter has fewer than two points.  The target ring is assumed
valid (`buffer(0)`/`make_valid` are the identity on it). -/
def split_polygon (targetPoints cutterPoints : List ℚ) (minArea : ℚ) :
    Option (List (List ℚ)) :=
  let tTuples := toPairs targetPoints
  let cTuples := toPairs cutterPoints
  if cTuples.length < 2 then none
  else
    let cExt := extend_line cTuples 20
    match cExt.head?, cExt.getLast? with
    | some p, some q => some (extract_polygons (splitByLine tTuples p q) minArea)
    | _, _ => none

/-! ### Helper lemmas for the geometry proofs -/

theorem natSqrt400 : Nat.sqrt 400 = 20 := by
  rw [show (400 : ℕ) = 20 * 20 from rfl]; exact Nat.sqrt_eq 20

theorem natSqrt1600 : Nat.sqrt 1600 = 40 := by
  rw [show (1600 : ℕ) = 40 * 40 from rfl]; exact Nat.sqrt_eq 40

theorem ratSqrt400 : ratSqrt 400 = 20 := by
  have h1 : ((400 : ℚ).num.toNat) = 400 := rfl
  have h2 : ((400 : ℚ).den) = 1 := rfl
  simp only [ratSqrt, h1, h2, natSqrt400, Nat.sqrt_one]
  norm_num

theorem ratSqrt1600 : ratSqrt 1600 = 40 := by
  have h1 : ((1600 : ℚ).num.toNat) = 1600 := rfl
  have h2 : ((1600 : ℚ).den) = 1 := rfl
  simp only [ratSqrt, h1, h2, natSqrt1600, Nat.sqrt_one]
  norm_num

/-- The cutter of the boolean-cut example, extended by 20 at both ends. -/
theorem extendLine_cutter : extend_line [(5, -5), (5, 15)] 20 = [(5, -25), (5, 35)] := by
  norm_num [extend_line, extendEnd, ratSqrt400, ratSqrt1600]

theorem toPairs_flattenPts (l : List Point) : toPairs (flattenPts l) = l := by
  induction l with
  | nil => rfl
  | cons p t ih =>
    simp only [flattenPts, List.flatMap_cons, List.cons_append, List.nil_append] at ih ⊢
    rw [toPairs, ih]

theorem toPairs_flatMap_pair (f g : Point → ℚ) (l : List Point) :
    toPairs (l.flatMap (fun p => [f p, g p])) = l.map (fun p => (f p, g p)) := by
  induction l with
  | nil => rfl
  | cons p t ih =>
    simp only [List.flatMap_cons, List.cons_append, List.nil_append, List.map_cons]
    rw [toPairs, ih]

theorem crossAux_single (p0 p : Point) : crossAux p0 [p] = p.1 * p0.2 - p0.1 * p.2 := rfl

theorem crossAux_cons_cons (p0 a b : Point) (rest : List Point) :
    crossAux p0 (a :: b :: rest) = (a.1 * b.2 - b.1 * a.2) + crossAux p0 (b :: rest) := rfl

theorem crossAux_append_last (l : List Point) : ∀ a p0 p : Point,
    crossAux p0 (a :: (l ++ [p])) = crossAux p (a :: l) + (p.1 * p0.2 - p0.1 * p.2) := by
  induction l with
  | nil =>
    intro a p0 p
    rw [List.nil_append, crossAux_cons_cons, crossAux_single, crossAux_single]
  | cons b l' ih =>
    intro a p0 p
    rw [List.cons_append, crossAux_cons_cons, crossAux_cons_cons, ih b p0 p]
    ring

theorem crossSum_exteriorCoords (g : List Point) :
    crossSum (exteriorCoords g) = crossSum g := by
  cases g with
  | nil => rfl
  | cons h t =>
    show crossSum (h :: (t ++ [h])) = crossSum (h :: t)
    simp only [crossSum]
    rw [crossAux_append_last t h h h]
    ring

theorem flatArea_flatten_exterior (g : List Point) :
    flatArea (flattenPts (exteriorCoords g)) = shoelaceArea g := by
  simp [flatArea, toPairs_flattenPts, shoelaceArea, crossSum_exteriorCoords]

theorem dropLast_exteriorCoords (l : List Point) : (exteriorCoords l).dropLast = l := by
  cases l with
  | nil => rfl
  | cons h t =>
    show (h :: (t ++ [h])).dropLast = h :: t
    rw [← List.cons_append, List.dropLast_concat]

/-! ### Claim C3 -/

/-- C3 as frozen is false: the polygon clipper applies no minimum-area
filter.  The normalized sliver with absolute corners (10,10), (15,10),
(15,11), (10,11) lies inside the tile (0,0,100,100) of a 100×100 image;
its intersection with the tile is itself, its pixel area is 5 < 10, it has
4 distinct vertices, and it is nevertheless emitted by
`intersect_polygon_with_box`. -/
theorem clip_emits_subthreshold_fragment :
    intersect_polygon_with_box
        [(1/10, 1/10), (3/20, 1/10), (3/20, 11/100), (1/10, 11/100)]
        (0, 0, 100, 100) 100 100
      = [[1/10, 1/10, 3/20, 1/10, 3/20, 11/100, 1/10, 11/100]] ∧
    100 * (100 * flatArea [(1:ℚ)/10, 1/10, 3/20, 1/10, 3/20, 11/100, 1/10, 11/100]) = 5 ∧
    ((5 : ℚ) < 10) ∧
    (toPairs [(1:ℚ)/10, 1/10, 3/20, 1/10, 3/20, 11/100, 1/10, 11/100]).Nodup ∧
    (toPairs [(1:ℚ)/10, 1/10, 3/20, 1/10, 3/20, 11/100, 1/10, 11/100]).length = 4 := by
  refine ⟨?_, ?_, by norm_num, ?_, ?_⟩
  · norm_num [intersect_polygon_with_box, clipRect, clipHP, shEmit, lineInter,
      List.rotate, processRing, exteriorCoords, clamp01,
      List.filterMap_cons, List.filterMap_nil]
  · norm_num [flatArea, toPairs, shoelaceArea, crossSum, crossAux, abs_of_nonneg]
  · norm_num [toPairs]
  · norm_num [toPairs]

/-- C3 amended: a fragment emitted by the polygon clipper always has at
least 3 vertices (6 coordinates) — vertices counted with multiplicity, not
distinctness — but no minimum-area condition is applied on the clipping
path; the 10 px² default minimum-area filter belongs to the boolean-split
editor (`_extract_polygons`), whose fragments always exceed the given
threshold. -/
theorem clip_and_split_fragment_filters :
    (∀ (poly : List Point) (box : ℚ × ℚ × ℚ × ℚ) (imgW imgH : ℚ) (f : List ℚ),
        f ∈ intersect_polygon_with_box poly box imgW imgH → 6 ≤ f.length) ∧
    (∀ (geoms : List (List Point)) (minArea : ℚ) (f : List ℚ),
        f ∈ extract_polygons geoms minArea → minArea < flatArea f) := by
  constructor
  · intro poly box imgW imgH f hf
    simp only [intersect_polygon_with_box] at hf
    rcases List.mem_filterMap.mp hf with ⟨ring, _, hring⟩
    simp only [processRing] at hring
    split at hring
    · exact (Option.some_injective _ hring) ▸ (by assumption)
    · exact absurd hring (by simp)
  · intro geoms minArea f hf
    rcases List.mem_filterMap.mp hf with ⟨g, _, hg⟩
    split at hg
    · obtain rfl : flattenPts (exteriorCoords g) = f := Option.some_injective _ hg
      rw [flatArea_flatten_exterior]
      assumption
    · exact absurd hg (by simp)

/-- Witness for `clip_and_split_fragment_filters`: the sliver fragment has
8 ≥ 6 coordinates, and the area-50 square half exceeds the threshold 10. -/
theorem clip_and_split_fragment_filters_witness :
    6 ≤ ([(1:ℚ)/10, 1/10, 3/20, 1/10, 3/20, 11/100, 1/10, 11/100] : List ℚ).length ∧
    (10 : ℚ) < flatArea [(5:ℚ), 0, 5, 10, 0, 10, 0, 0, 5, 0] := by
  have h := clip_and_split_fragment_filters
  constructor
  · refine h.1 [(1/10, 1/10), (3/20, 1/10), (3/20, 11/100), (1/10, 11/100)]
      (0, 0, 100, 100) 100 100 _ ?_
    norm_num [intersect_polygon_with_box, clipRect, clipHP, shEmit, lineInter,
      List.rotate, processRing, exteriorCoords, clamp01,
      List.filterMap_cons, List.filterMap_nil]
  · refine h.2 [[(5, 0), (5, 10), (0, 10), (0, 0)]] 10 _ ?_
    norm_num [extract_polygons, shoelaceArea, crossSum, crossAux, exteriorCoords,
      flattenPts, abs_of_nonneg, List.filterMap_cons, List.filterMap_nil]

/-! ### Claim C8

The boolean-cut example is evaluated in stages (cutter pairing, endpoint
extension, split into half-plane clips, area filter), so that each step's
certificate stays small. -/

theorem toPairs_cutter : toPairs [(5:ℚ), -5, 5, 15] = [(5, -5), (5, 15)] := by
  norm_num [toPairs]

/-- Unfolding of `split_polygon` on the boolean-cut example up to the
split-and-extract stage, using the already-computed extended cutter. -/
theorem split_square_unfold :
    split_polygon [0, 0, 10, 0, 10, 10, 0, 10] [5, -5, 5, 15] 10
      = some (extract_polygons
          (splitByLine (toPairs [0, 0, 10, 0, 10, 10, 0, 10]) (5, -25) (5, 35)) 10) := by
  simp only [split_polygon, toPairs_cutter, extendLine_cutter]
  norm_num

/-- The two half-plane clips of the square on either side of the extended
vertical cutter line. -/
theorem splitByLine_square :
    splitByLine (toPairs [0, 0, 10, 0, 10, 10, 0, 10]) (5, -25) (5, 35)
      = [[(5, 0), (5, 10), (0, 10), (0, 0)], [(5, 0), (10, 0), (10, 10), (5, 10)]] := by
  norm_num [splitByLine, clipHP, shEmit, lineInter, toPairs, List.rotate]

/-- Both square halves pass the area filter (area 50 > 10) and are
flattened with the duplicated closing vertex. -/
theorem extract_square_halves :
    extract_polygons
        [[(5, 0), (5, 10), (0, 10), (0, 0)], [(5, 0), (10, 0), (10, 10), (5, 10)]] 10
      = [[5, 0, 5, 10, 0, 10, 0, 0, 5, 0], [5, 0, 10, 0, 10, 10, 5, 10, 5, 0]] := by
  norm_num [extract_polygons, shoelaceArea, crossSum, crossAux, exteriorCoords,
    flattenPts, abs_of_nonneg, List.filterMap_cons, List.filterMap_nil]

/-- Full evaluation of the boolean-cut example. -/
theorem split_square_eval :
    split_polygon [0, 0, 10, 0, 10, 10, 0, 10] [5, -5, 5, 15] 10
      = some [[5, 0, 5, 10, 0, 10, 0, 0, 5, 0], [5, 0, 10, 0, 10, 10, 5, 10, 5, 0]] := by
  rw [split_square_unfold, splitByLine_square, extract_square_halves]

/-- C8 confirmed: cutting the 10×10 square with the vertical line from
(5,−5) to (5,15) — extended by 20 units at each end to (5,−25), (5,35) —
returns exactly two rectangular fragments, each of area 50 (the flat lists
carry the duplicated closing vertex exactly as the code emits them). -/
theorem split_polygon_square_cut :
    split_polygon [0, 0, 10, 0, 10, 10, 0, 10] [5, -5, 5, 15] 10
      = some [[5, 0, 5, 10, 0, 10, 0, 0, 5, 0], [5, 0, 10, 0, 10, 10, 5, 10, 5, 0]] ∧
    flatArea [(5:ℚ), 0, 5, 10, 0, 10, 0, 0, 5, 0] = 50 ∧
    flatArea [(5:ℚ), 0, 10, 0, 10, 10, 5, 10, 5, 0] = 50 := by
  refine ⟨split_square_eval, ?_, ?_⟩
  · norm_num [flatArea, toPairs, shoelaceArea, crossSum, crossAux, abs_of_nonneg]
  · norm_num [flatArea, toPairs, shoelaceArea, crossSum, crossAux, abs_of_nonneg]

/-! ### Claim C7 -/

/-- C7 as frozen is false: `split_polygon` stores fragments WITH the
duplicated closing vertex.  In the boolean-cut example the first emitted
fragment starts and ends with the point (5,0). -/
theorem split_fragment_repeats_first_point :
    split_polygon [0, 0, 10, 0, 10, 10, 0, 10] [5, -5, 5, 15] 10
      = some [[5, 0, 5, 10, 0, 10, 0, 0, 5, 0], [5, 0, 10, 0, 10, 10, 5, 10, 5, 0]] ∧
    (toPairs [(5:ℚ), 0, 5, 10, 0, 10, 0, 0, 5, 0]).head? = some (5, 0) ∧
    (toPairs [(5:ℚ), 0, 5, 10, 0, 10, 0, 0, 5, 0]).getLast? = some (5, 0) := by
  exact ⟨split_square_eval, by norm_num [toPairs], by norm_num [toPairs]⟩

/-- C7 amended: only `intersect_polygon_with_box` drops the duplicated
closing vertex — a fragment built by `processRing` from a ring with
distinct first/last vertices lying inside the tile box has distinct first
and last points — whereas fragments emitted through `_extract_polygons`
(the `split_polygon` path) always repeat their first point as their last
point. -/
theorem closing_vertex_conventions :
    (∀ (x1 y1 tw th : ℚ) (ring : List Point) (f : List ℚ),
        0 < tw → 0 < th →
        (∀ p ∈ ring, x1 ≤ p.1 ∧ p.1 ≤ x1 + tw ∧ y1 ≤ p.2 ∧ p.2 ≤ y1 + th) →
        3 ≤ ring.length →
        ring.head? ≠ ring.getLast? →
        processRing x1 y1 tw th ring = some f →
        (toPairs f).head? ≠ (toPairs f).getLast?) ∧
    (∀ (geoms : List (List Point)) (minArea : ℚ) (f : List ℚ),
        f ∈ extract_polygons geoms minArea →
        (toPairs f).head? = (toPairs f).getLast?) := by
  constructor
  · intro x1 y1 tw th ring f htw hth hbox hlen hne hproc
    simp only [processRing] at hproc
    split at hproc
    · obtain rfl := Option.some_injective _ hproc
      rw [dropLast_exteriorCoords, toPairs_flatMap_pair]
      rw [List.head?_map, List.getLast?_map]
      intro heq
      apply hne
      obtain ⟨a, ha⟩ : ∃ a, ring.head? = some a := by
        cases hr : ring.head? with
        | none => rw [List.head?_eq_none_iff] at hr; subst hr; simp at hlen
        | some a => exact ⟨a, rfl⟩
      obtain ⟨b, hb⟩ : ∃ b, ring.getLast? = some b := by
        cases hr : ring.getLast? with
        | none => rw [List.getLast?_eq_none_iff] at hr; subst hr; simp at hlen
        | some b => exact ⟨b, rfl⟩
      rw [ha, hb] at heq ⊢
      have hmema : a ∈ ring := List.mem_of_mem_head? (by rw [ha]; rfl)
      have hmemb : b ∈ ring := List.mem_of_mem_getLast? hb
      obtain ⟨ha1, ha2, ha3, ha4⟩ := hbox a hmema
      obtain ⟨hb1, hb2, hb3, hb4⟩ := hbox b hmemb
      have hclampa1 : clamp01 ((a.1 - x1) / tw) = (a.1 - x1) / tw := by
        unfold clamp01
        rw [max_eq_left (div_nonneg (by linarith) (by linarith)),
          min_eq_left (by rw [div_le_one htw]; linarith)]
      have hclampb1 : clamp01 ((b.1 - x1) / tw) = (b.1 - x1) / tw := by
        unfold clamp01
        rw [max_eq_left (div_nonneg (by linarith) (by linarith)),
          min_eq_left (by rw [div_le_one htw]; linarith)]
      have hclampa2 : clamp01 ((a.2 - y1) / th) = (a.2 - y1) / th := by
        unfold clamp01
        rw [max_eq_left (div_nonneg (by linarith) (by linarith)),
          min_eq_left (by rw [div_le_one hth]; linarith)]
      have hclampb2 : clamp01 ((b.2 - y1) / th) = (b.2 - y1) / th := by
        unfold clamp01
        rw [max_eq_left (div_nonneg (by linarith) (by linarith)),
          min_eq_left (by rw [div_le_one hth]; linarith)]
      simp only [Option.map_some', Option.some.injEq, Prod.mk.injEq] at heq
      rw [hclampa1, hclampb1, hclampa2, hclampb2] at heq
      have hx : a.1 = b.1 := by
        have h1 := (div_eq_div_iff (ne_of_gt htw) (ne_of_gt htw)).mp heq.1
        have h2 : a.1 - x1 = b.1 - x1 := mul_right_cancel₀ (ne_of_gt htw) h1
        linarith
      have hy : a.2 = b.2 := by
        have h1 := (div_eq_div_iff (ne_of_gt hth) (ne_of_gt hth)).mp heq.2
        have h2 : a.2 - y1 = b.2 - y1 := mul_right_cancel₀ (ne_of_gt hth) h1
        linarith
      exact congrArg some (Prod.ext hx hy)
    · exact absurd hproc (by simp)
  · intro geoms minArea f hf
    rcases List.mem_filterMap.mp hf with ⟨g, _, hg⟩
    split at hg
    · obtain rfl : flattenPts (exteriorCoords g) = f := Option.some_injective _ hg
      rw [toPairs_flattenPts]
      cases g with
      | nil => rfl
      | cons h t =>
        show (h :: (t ++ [h])).head? = (h :: (t ++ [h])).getLast?
        rw [← List.cons_append, List.getLast?_concat]
        rfl
    · exact absurd hg (by simp)

/-- Witness for `closing_vertex_conventions`: a triangle inside the tile
box (0,0,4,4) yields a clipper fragment whose first and last points
differ, while the boolean-cut square half repeats its first point. -/
theorem closing_vertex_conventions_witness :
    (toPairs [(1:ℚ)/4, 1/4, 3/4, 1/4, 1/2, 1/2]).head?
        ≠ (toPairs [(1:ℚ)/4, 1/4, 3/4, 1/4, 1/2, 1/2]).getLast? ∧
    (toPairs [(5:ℚ), 0, 5, 10, 0, 10, 0, 0, 5, 0]).head?
        = (toPairs [(5:ℚ), 0, 5, 10, 0, 10, 0, 0, 5, 0]).getLast? := by
  have h := closing_vertex_conventions
  constructor
  · refine h.1 0 0 4 4 [(1, 1), (3, 1), (2, 2)] _ (by norm_num) (by norm_num)
      ?_ (by norm_num) (by norm_num [Prod.ext_iff]) ?_
    · intro p hp
      simp only [List.mem_cons, List.not_mem_nil, or_false] at hp
      rcases hp with rfl | rfl | rfl <;> norm_num
    · norm_num [processRing, exteriorCoords, clamp01]
  · refine h.2 [[(5, 0), (5, 10), (0, 10), (0, 0)]] 10 _ ?_
    norm_num [extract_polygons, shoelaceArea, crossSum, crossAux, exteriorCoords,
      flattenPts, abs_of_nonneg, List.filterMap_cons, List.filterMap_nil]

/-! ## Detection merging (backend/app/utils/image.py `safe_nms` and the
merge stage of `InferenceService.detect_all`)

A detection carries a flat polygon point list and a confidence score.
`detect_all` computes the axis-aligned bounding box of each detection's
points as `[min_x, min_y, w, h]`, calls `cv2.dnn.NMSBoxes(boxes, scores,
score_threshold=0.01, nms_threshold=iou_threshold)` and keeps the returned
indices, then sorts the survivors by confidence descending and truncates to
`max_det`.  `cv2.dnn.NMSBoxes` is embedded by its documented greedy
algorithm: consider candidates with score above the score threshold in
score-descending order, and keep a candidate iff its rectangle IoU with
every already-kept box does not exceed the NMS threshold. -/

/-- Python slice `l[0::2]`. -/
def sliceStep2 : List ℚ → List ℚ
  | [] => []
  | [x] => [x]
  | x :: _ :: rest => x :: sliceStep2 rest

/-- Python `min(l)` for nonempty `l` (the empty case never arises: the
code computes minima only of nonempty coordinate lists). -/
def listMin : List ℚ → ℚ
  | [] => 0
  | x :: rest => rest.foldl min x

/-- Python `max(l)` for nonempty `l`. -/
def listMax : List ℚ → ℚ
  | [] => 0
  | x :: rest => rest.foldl max x

/-- The `[min_x, min_y, w, h]` bounding box `detect_all` derives from a
detection's flat point list. -/
def bboxOfPoints (pts : List ℚ) : ℚ × ℚ × ℚ × ℚ :=
  let xs := sliceStep2 pts
  let ys := sliceStep2 (pts.drop 1)
  (listMin xs, listMin ys, listMax xs - listMin xs, listMax ys - listMin ys)

/-- Rectangle IoU of two `[x, y, w, h]` boxes, as OpenCV's
`rectOverlap`/`jaccardDistance` computes it (empty or degenerate unions
give 0). -/
def iouXYWH (a b : ℚ × ℚ × ℚ × ℚ) : ℚ :=
  let interW := min (a.1 + a.2.2.1) (b.1 + b.2.2.1) - max a.1 b.1
  let interH := min (a.2.1 + a.2.2.2) (b.2.1 + b.2.2.2) - max a.2.1 b.2.1
  let interArea := max interW 0 * max interH 0
  let unionArea := a.2.2.1 * a.2.2.2 + b.2.2.1 * b.2.2.2 - interArea
  if unionArea ≤ 0 then 0 else interArea / unionArea

/-- Pairs each score with its index: `[(s0, 0), (s1, 1), ...]`. -/
def enumScores : ℕ → List ℚ → List (ℚ × ℕ)
  | _, [] => []
  | i, s :: rest => (s, i) :: enumScores (i + 1) rest

/-- Insertion step of a descending sort keyed by `key`. -/
def insertDesc (key : α → ℚ) (x : α) : List α → List α
  | [] => [x]
  | y :: rest => if key y < key x then x :: y :: rest else y :: insertDesc key x rest

/-- Sorts descending by `key` (`std::sort` with a greater-than comparator /
Python `sort(reverse=True)`; no ties arise on the inputs evaluated here, so
stability is irrelevant). -/
def sortDesc (key : α → ℚ) : List α → List α
  | [] => []
  | x :: rest => insertDesc key x (sortDesc key rest)

/-- Positional indexing, `l[i]` as an `Option`. -/
def getIdx : List α → ℕ → Option α
  | [], _ => none
  | x :: _, 0 => some x
  | _ :: rest, n + 1 => getIdx rest n

/-- Greedy suppression pass over the score-sorted candidate list: keep a
candidate iff its IoU with every already-kept box is at most the
threshold. -/
def nmsLoop (boxes : List (ℚ × ℚ × ℚ × ℚ)) (thr : ℚ) :
    List (ℚ × ℕ) → List ℕ → List ℕ
  | [], kept => kept
  | (_, i) :: rest, kept =>
    let bi := (getIdx boxes i).getD (0, 0, 0, 0)
    if kept.all (fun j => decide (iouXYWH ((getIdx boxes j).getD (0, 0, 0, 0)) bi ≤ thr)) then
      nmsLoop boxes thr rest (kept ++ [i])
    else
      nmsLoop boxes thr rest kept

/-- Embedding of `safe_nms(boxes, scores, iou_threshold)`: empty input
gives `[]`; otherwise the greedy OpenCV NMS with score threshold 0.01. -/
def safe_nms (boxes : List (ℚ × ℚ × ℚ × ℚ)) (scores : List ℚ) (iouThreshold : ℚ) :
    List ℕ :=
  if boxes.isEmpty then []
  else
    let cands := (enumScores 0 scores).filter (fun p => decide ((1 : ℚ)/100 < p.1))
    nmsLoop boxes iouThreshold (sortDesc Prod.fst cands) []

/-- The merge stage of `detect_all` on already-translated detections
`(points, confidence)`: bounding boxes, global NMS, confidence-descending
sort, truncation to `max_det`. -/
def mergeDetections (dets : List (List ℚ × ℚ)) (iouThreshold : ℚ) (maxDet : ℕ) :
    List (List ℚ × ℚ) :=
  let boxes := dets.map (fun d => bboxOfPoints d.1)
  let scores := dets.map Prod.snd
  let keep := safe_nms boxes scores iouThreshold
  let final := keep.filterMap (getIdx dets)
  (sortDesc Prod.snd final).take maxDet

/-- C4 as frozen is false: the two boxes (10,10)–(50,50) and (40,10)–(80,50)
have IoU 1/7 ≈ 0.143 < 0.3, so greedy suppression at merge threshold 0.3
keeps BOTH detections — the merge does not return only the 0.9-confidence
one. -/
theorem merge_example_not_single :
    mergeDetections [([10, 10, 50, 50], 9/10), ([40, 10, 80, 50], 8/10)] (3/10) 300
      = [([10, 10, 50, 50], 9/10), ([40, 10, 80, 50], 8/10)] ∧
    mergeDetections [([10, 10, 50, 50], 9/10), ([40, 10, 80, 50], 8/10)] (3/10) 300
      ≠ [([10, 10, 50, 50], 9/10)] := by
  have h : mergeDetections [([10, 10, 50, 50], 9/10), ([40, 10, 80, 50], 8/10)] (3/10) 300
      = [([10, 10, 50, 50], 9/10), ([40, 10, 80, 50], 8/10)] := by
    norm_num [mergeDetections, bboxOfPoints, sliceStep2, listMin, listMax, safe_nms,
      enumScores, sortDesc, insertDesc, nmsLoop, getIdx, iouXYWH,
      List.filterMap_cons, List.filterMap_nil]
  exact ⟨h, by rw [h]; simp⟩

/-- C4 amended: merging the two-detection set keeps both detections, in
confidence order (0.9 first): their bounding-box IoU is 1/7 ≈ 0.143, which
is below the 0.3 merge threshold, so the greedy suppression suppresses
neither. -/
theorem merge_example_keeps_both :
    iouXYWH (bboxOfPoints [10, 10, 50, 50]) (bboxOfPoints [40, 10, 80, 50]) = 1/7 ∧
    ((1 : ℚ)/7 < 3/10) ∧
    mergeDetections [([10, 10, 50, 50], 9/10), ([40, 10, 80, 50], 8/10)] (3/10) 300
      = [([10, 10, 50, 50], 9/10), ([40, 10, 80, 50], 8/10)] := by
  refine ⟨?_, by norm_num, ?_⟩
  · norm_num [bboxOfPoints, sliceStep2, listMin, listMax, iouXYWH]
  · norm_num [mergeDetections, bboxOfPoints, sliceStep2, listMin, listMax, safe_nms,
      enumScores, sortDesc, insertDesc, nmsLoop, getIdx, iouXYWH,
      List.filterMap_cons, List.filterMap_nil]

/-! ## Class registry and multi-project class reconciliation
(backend/app/services/class_service.py and the class-merge step of
dataset_service.prepare_multi_project_training_job)

The registry file `project_classes.json` holds a name → id map; Python
dicts preserve insertion order, so it is embedded as an association list.
Ids are the non-negative integers the service itself assigns. -/

/-- Python enumerate: `[(i, x0), (i+1, x1), ...]`. -/
def enumFrom (i : ℕ) : List α → List (ℕ × α)
  | [] => []
  | x :: rest => (i, x) :: enumFrom (i + 1) rest

/-- Python `str.strip()`: drop leading and trailing whitespace (embedded
at the character-list level). -/
def strStrip (s : String) : String :=
  String.mk (((s.data.dropWhile Char.isWhitespace).reverse.dropWhile
    Char.isWhitespace).reverse)

/-- Python `str.lower()` for the ASCII class names the service handles
(embedded at the character-list level). -/
def strLower (s : String) : String :=
  String.mk (s.data.map Char.toLower)

/-- Name normalization of the multi-project merge: `cls.strip().lower()`. -/
def normalizeName (s : String) : String := strLower (strStrip s)

/-- Step 1 of `prepare_multi_project_training_job`: the unified class list,
built in source order then local-id order, adding each normalized name on
first sight. -/
def buildMasterClasses (sources : List (List String)) : List String :=
  sources.foldl (fun acc classes =>
    classes.foldl (fun acc2 c =>
      let n := normalizeName c
      if n ∈ acc2 then acc2 else acc2 ++ [n]) acc) []

/-- Step 2 of `prepare_multi_project_training_job`: one source's remap
table `{old_id: all_classes.index(normalized)}` (every normalized name of
a processed source occurs in the master list, so `index` never raises). -/
def buildRemap (classes master : List String) : List (ℕ × ℕ) :=
  (enumFrom 0 classes).map (fun p => (p.1, master.indexOf (normalizeName p.2)))

/-- C5 confirmed: sources A=["car","Dog"], B=["DOG","cat"] produce the
unified list ["car","dog","cat"] and B's remap table {0: 1, 1: 2} (A's is
the identity {0: 0, 1: 1}). -/
theorem multi_project_class_merge :
    buildMasterClasses [["car", "Dog"], ["DOG", "cat"]] = ["car", "dog", "cat"] ∧
    buildRemap ["DOG", "cat"] (buildMasterClasses [["car", "Dog"], ["DOG", "cat"]])
      = [(0, 1), (1, 2)] ∧
    buildRemap ["car", "Dog"] (buildMasterClasses [["car", "Dog"], ["DOG", "cat"]])
      = [(0, 0), (1, 1)] := by
  refine ⟨by decide, by decide, by decide⟩

/-- The persistent name → id registry, in file/insertion order. -/
abbrev Registry := List (String × ℕ)

/-- The fresh id `get_or_create_class_id` assigns to an unknown name:
`max(registry.values()) + 1`, or 0 for an empty registry. -/
def registryNewId (reg : Registry) : ℕ :=
  if reg.isEmpty then 0 else (reg.map Prod.snd).foldr max 0 + 1

/-- Embedding of `ClassService.get_or_create_class_id`: returns the id and
the registry as persisted after the call. -/
def get_or_create_class_id (reg : Registry) (className : String) : ℕ × Registry :=
  match reg.lookup className with
  | some i => (i, reg)
  | none =>
    let newId := registryNewId reg
    (newId, reg ++ [(className, newId)])

theorem get_or_create_of_found {reg : Registry} {className : String} {i : ℕ}
    (h : reg.lookup className = some i) :
    get_or_create_class_id reg className = (i, reg) := by
  unfold get_or_create_class_id
  rw [h]

theorem get_or_create_of_missing {reg : Registry} {className : String}
    (h : reg.lookup className = none) :
    get_or_create_class_id reg className
      = (registryNewId reg, reg ++ [(className, registryNewId reg)]) := by
  unfold get_or_create_class_id
  rw [h]

theorem lookup_append_single_of_none {reg : Registry} {k : String} {v : ℕ}
    (h : reg.lookup k = none) : (reg ++ [(k, v)]).lookup k = some v := by
  induction reg with
  | nil => simp [List.lookup]
  | cons a t ih =>
    simp only [List.lookup, List.cons_append] at h ⊢
    cases hk : (k == a.1) with
    | true => rw [hk] at h; exact absurd h (by simp)
    | false => rw [hk] at h; exact ih h

/-- C6 confirmed: `get_or_create_class_id` returns the existing id of a
known name and leaves the registry untouched; for an unknown name it
returns `max(existing ids)+1` (0 for an empty registry) and appends only
that one entry; every pre-existing entry survives unchanged; and a second
call with the same name returns the same id without modifying the registry
again. -/
theorem get_or_create_class_id_spec (reg : Registry) (className : String) :
    (∀ i, reg.lookup className = some i →
        get_or_create_class_id reg className = (i, reg)) ∧
    (reg.lookup className = none →
        get_or_create_class_id reg className
          = (registryNewId reg, reg ++ [(className, registryNewId reg)])) ∧
    (∀ p ∈ reg, p ∈ (get_or_create_class_id reg className).2) ∧
    (get_or_create_class_id (get_or_create_class_id reg className).2 className
      = ((get_or_create_class_id reg className).1,
         (get_or_create_class_id reg className).2)) := by
  refine ⟨fun i hi => get_or_create_of_found hi, fun hn => get_or_create_of_missing hn,
    ?_, ?_⟩
  · intro p hp
    cases h : reg.lookup className with
    | some i => rw [get_or_create_of_found h]; exact hp
    | none =>
      rw [get_or_create_of_missing h]
      exact List.mem_append_left _ hp
  · cases h : reg.lookup className with
    | some i =>
      rw [get_or_create_of_found h, get_or_create_of_found h]
    | none =>
      rw [get_or_create_of_missing h]
      rw [get_or_create_of_found (lookup_append_single_of_none h)]

/-- Witness for `get_or_create_class_id_spec`: adding "dog" to the
registry containing only "car"↦0 yields id 1 and appends one entry, and
repeating the call is a no-op returning the same id. -/
theorem get_or_create_class_id_spec_witness :
    get_or_create_class_id [("car", 0)] "dog" = (1, [("car", 0), ("dog", 1)]) ∧
    get_or_create_class_id [("car", 0), ("dog", 1)] "dog"
      = (1, [("car", 0), ("dog", 1)]) := by
  have h := get_or_create_class_id_spec [("car", 0)] "dog"
  have hn : ([("car", 0)] : Registry).lookup "dog" = none := by decide
  have h2 := h.2.1 hn
  have hid : registryNewId [("car", 0)] = 1 := by decide
  rw [hid] at h2
  refine ⟨h2, ?_⟩
  have h3 := h.2.2.2
  rw [h2] at h3
  exact h3

/-- Embedding of `ClassService.get_registry`: the registry-file state is
`none` when the file is missing or unreadable, `some s` when it holds the
raw text `s`; `parse` is the JSON decoder, `none` on corrupt contents.
Both failures are swallowed by the bare `except` into an empty map. -/
def get_registry (parse : String → Option Registry) (file : Option String) : Registry :=
  match file with
  | none => []
  | some s =>
    match parse s with
    | none => []
    | some m => m

/-- C9 confirmed: whenever reading the registry file fails (missing or
unreadable file) or its contents fail to parse as JSON, `get_registry`
returns the empty map instead of raising; a successful read and parse
returns the parsed map. -/
theorem get_registry_failure_spec (parse : String → Option Registry)
    (file : Option String) :
    (file = none → get_registry parse file = []) ∧
    (∀ s, file = some s → parse s = none → get_registry parse file = []) ∧
    (∀ s m, file = some s → parse s = some m → get_registry parse file = m) := by
  refine ⟨?_, ?_, ?_⟩
  · intro h; subst h; rfl
  · intro s hf hp; subst hf; simp [get_registry, hp]
  · intro s m hf hp; subst hf; simp [get_registry, hp]

/-- Witness for `get_registry_failure_spec`: a missing file and a corrupt
file both load as the empty registry. -/
theorem get_registry_failure_spec_witness :
    get_registry (fun _ => none) none = [] ∧
    get_registry (fun _ => none) (some "corrupt") = [] := by
  exact ⟨(get_registry_failure_spec (fun _ => none) none).1 rfl,
    (get_registry_failure_spec (fun _ => none) (some "corrupt")).2.1 "corrupt" rfl rfl⟩

/-- The master ids assigned to the external names, in processing order,
threading the registry state through the successive
`get_or_create_class_id` calls. -/
def assignedIds (reg : Registry) : List String → List ℕ
  | [] => []
  | n :: rest =>
    (get_or_create_class_id reg n).1
      :: assignedIds (get_or_create_class_id reg n).2 rest

/-- The loop of `get_id_map_for_external_classes`, carrying the running
external index: an entry `(ext_id, master_id)` is recorded only when the
two differ. -/
def idMapGo (reg : Registry) : List String → ℕ → List (ℕ × ℕ)
  | [], _ => []
  | n :: rest, extId =>
    let mid := (get_or_create_class_id reg n).1
    let m := idMapGo (get_or_create_class_id reg n).2 rest (extId + 1)
    if extId = mid then m else (extId, mid) :: m

/-- Embedding of `ClassService.get_id_map_for_external_classes`. -/
def get_id_map_for_external_classes (reg : Registry) (externalClasses : List String) :
    List (ℕ × ℕ) :=
  idMapGo reg externalClasses 0

theorem idMapGo_keys_lb (names : List String) : ∀ (reg : Registry) (k : ℕ)
    (p : ℕ × ℕ), p ∈ idMapGo reg names k → k ≤ p.1 := by
  induction names with
  | nil => intro reg k p hp; simp [idMapGo] at hp
  | cons n rest ih =>
    intro reg k p hp
    simp only [idMapGo] at hp
    split at hp
    · exact Nat.le_of_succ_le (ih _ (k + 1) p hp)
    · rcases List.mem_cons.mp hp with rfl | hp'
      · exact le_rfl
      · exact Nat.le_of_succ_le (ih _ (k + 1) p hp')

theorem lookup_none_of_keys_gt {l : List (ℕ × ℕ)} {k : ℕ}
    (h : ∀ p ∈ l, k < p.1) : l.lookup k = none := by
  induction l with
  | nil => rfl
  | cons a t ih =>
    have hk : k ≠ a.1 := Nat.ne_of_lt (h a (List.mem_cons_self a t))
    simp only [List.lookup]
    rw [show (k == a.1) = false from beq_eq_false_iff_ne.mpr hk]
    exact ih (fun p hp => h p (List.mem_cons_of_mem a hp))

theorem idMapGo_lookup (names : List String) : ∀ (reg : Registry) (k i : ℕ),
    i < names.length →
    (idMapGo reg names k).lookup (k + i)
      = (if (assignedIds reg names).getD i 0 = k + i then none
         else some ((assignedIds reg names).getD i 0)) := by
  induction names with
  | nil => intro reg k i h; simp at h
  | cons n rest ih =>
    intro reg k i h
    simp only [idMapGo, assignedIds]
    cases i with
    | zero =>
      simp only [Nat.add_zero, List.getD_cons_zero]
      split
      · rename_i heq
        rw [← heq, if_pos rfl]
        exact lookup_none_of_keys_gt
          (fun p hp => Nat.lt_of_succ_le (idMapGo_keys_lb rest _ (k + 1) p hp))
      · rename_i hne
        rw [if_neg (fun hmid => hne hmid.symm)]
        simp [List.lookup]
    | succ j =>
      have hj : j < rest.length := by simpa using h
      have hrec := ih (get_or_create_class_id reg n).2 (k + 1) j hj
      have harith : k + (j + 1) = (k + 1) + j := by omega
      rw [harith, List.getD_cons_succ]
      split
      · exact hrec
      · simp only [List.lookup]
        rw [show ((k + 1) + j == k) = false from
          beq_eq_false_iff_ne.mpr (by omega)]
        exact hrec

/-- C10 confirmed: for every registry state and external class list, the
returned map has an entry for position `i` exactly when the master id
assigned to the name at position `i` differs from `i`; positions where
they coincide are absent (identity implied). -/
theorem get_id_map_spec (reg : Registry) (names : List String) (i : ℕ)
    (h : i < names.length) :
    (get_id_map_for_external_classes reg names).lookup i
      = (if (assignedIds reg names).getD i 0 = i then none
         else some ((assignedIds reg names).getD i 0)) := by
  have := idMapGo_lookup names reg 0 i h
  simpa using this

/-- Witness for `get_id_map_spec`: with master registry {"car"↦0} and
external list ["truck","car"], position 0 maps to master id 1 and position
1 to master id 0 — both differ from their index, so both appear. -/
theorem get_id_map_spec_witness :
    (get_id_map_for_external_classes [("car", 0)] ["truck", "car"]).lookup 0 = some 1 ∧
    (get_id_map_for_external_classes [("car", 0)] ["truck", "car"]).lookup 1 = some 0 := by
  have h0 := get_id_map_spec [("car", 0)] ["truck", "car"] 0 (by norm_num)
  have h1 := get_id_map_spec [("car", 0)] ["truck", "car"] 1 (by norm_num)
  rw [h0, h1]
  decide

end ImageLabeling
